import Mathlib

set_option autoImplicit false

/-!
Verification development for the core of a small x86_64 operating system
(UEFI bootloader + kernel).  The definitions below are a shallow embedding
of the kernel's Rust sources:

* `Pmm`        — the bitmap physical frame allocator (src/kernel/src/pmm.rs)
* `Syscalls`   — the syscall handlers (src/kernel/src/syscalls.rs)
* `ElfLoader`  — ELF loading and user stack setup (src/kernel/src/elf_loader.rs)
* `Locking`    — the locking structure of the allocator's public API
                 (src/kernel/src/pmm.rs together with src/kernel/src/spinlock.rs)

Machine integers are modelled as `Nat` with explicit `% 2 ^ 64` where 64-bit
wrap-around matters; raw pointers into physical memory become explicit
functions (`Nat → Nat` for word/byte stores); fallible code returns `Option`.
-/

namespace Pmm

/-- `PAGE_SIZE` from pmm.rs. -/
def PAGE_SIZE : Nat := 4096

/-- The all-ones 64-bit word, Rust's `!0u64`. -/
def UMAX : Nat := 2 ^ 64 - 1

/-- One entry of the firmware memory map (`MemoryDescriptor` as read by
`BitmapPmm::init`: a type tag, a physical start, and a 4 KiB page count).
Entries with `type_ = 7` are `ConventionalMemory`. -/
structure MemoryDescriptor where
  type_ : Nat
  phys_start : Nat
  page_count : Nat
deriving DecidableEq

/-- The allocator state.  The `bitmap: *mut u64` array is modelled as the
function from word index to the 64-bit word stored there; addresses and the
HHDM offset only choose where the array lives, not what it contains. -/
structure BitmapPmm where
  bitmap : Nat → Nat
  total_frames : Nat
  bitmap_size_u64 : Nat
  bitmap_start_addr : Nat

/-- `BitmapPmm::mark_used`: set bit `frame_idx % 64` of word `frame_idx / 64`
(`*self.bitmap.add(word_idx) |= 1 << bit_idx`). -/
def mark_used (s : BitmapPmm) (frame_idx : Nat) : BitmapPmm :=
  { s with bitmap := fun j =>
      if j = frame_idx / 64 then s.bitmap (frame_idx / 64) ||| (1 <<< (frame_idx % 64))
      else s.bitmap j }

/-- `BitmapPmm::mark_free`: clear bit `frame_idx % 64` of word `frame_idx / 64`
(`&= !(1 << bit_idx)`; the u64 complement of `1 << b` is `UMAX ^^^ (1 <<< b)`). -/
def mark_free (s : BitmapPmm) (frame_idx : Nat) : BitmapPmm :=
  { s with bitmap := fun j =>
      if j = frame_idx / 64 then s.bitmap (frame_idx / 64) &&& (UMAX ^^^ (1 <<< (frame_idx % 64)))
      else s.bitmap j }

/-- `BitmapPmm::mark_region_used`: `for i in 0..page_count { mark_used(start_frame + i) }`. -/
def mark_region_used (s : BitmapPmm) (start_addr page_count : Nat) : BitmapPmm :=
  (List.range page_count).foldl (fun t i => mark_used t (start_addr / PAGE_SIZE + i)) s

/-- `BitmapPmm::mark_region_free`: as `mark_region_used` but clearing bits, and
only when `start_frame + i < self.total_frames`. -/
def mark_region_free (s : BitmapPmm) (start_addr page_count : Nat) : BitmapPmm :=
  (List.range page_count).foldl
    (fun t i =>
      if start_addr / PAGE_SIZE + i < t.total_frames then mark_free t (start_addr / PAGE_SIZE + i)
      else t) s

/-- The bitmap-placement scan of `BitmapPmm::init`: the first `ConventionalMemory`
entry with nonzero physical start whose size is at least `bitmap_size_bytes`. -/
def find_bitmap_region (mmap : List MemoryDescriptor) (bitmap_size_bytes : Nat) :
    Option MemoryDescriptor :=
  mmap.find? (fun d =>
    d.type_ == 7 && d.phys_start != 0 && decide (bitmap_size_bytes ≤ d.page_count * PAGE_SIZE))

/-- `BitmapPmm::init` (pmm.rs lines 32-123).  Returns `none` where the source
panics ("No RAM for Bitmap").  The steps, in source order: size computation,
placement scan, fill with `0xFF`, free every `ConventionalMemory` entry,
re-mark the bitmap's own frames used, mark frame 0 used. -/
def init (mmap : List MemoryDescriptor) (max_phys_addr : Nat) : Option BitmapPmm :=
  let total_frames := max_phys_addr / PAGE_SIZE
  let bitmap_size_u64 := (total_frames + 63) / 64
  let bitmap_size_bytes := bitmap_size_u64 * 8
  match find_bitmap_region mmap bitmap_size_bytes with
  | none => none
  | some d =>
      let bitmap_phys_addr := d.phys_start
      let s0 : BitmapPmm :=
        { bitmap := fun j => if j < bitmap_size_u64 then UMAX else 0
          total_frames := total_frames
          bitmap_size_u64 := bitmap_size_u64
          bitmap_start_addr := bitmap_phys_addr }
      let s1 := mmap.foldl
        (fun t e => if e.type_ = 7 then mark_region_free t e.phys_start e.page_count else t) s0
      let bitmap_pages := (bitmap_size_bytes + PAGE_SIZE - 1) / PAGE_SIZE
      let s2 := mark_region_used s1 bitmap_phys_addr bitmap_pages
      some (mark_used s2 0)

/-- Bit `i` of the bitmap: bit `i % 64` of word `i / 64`. -/
def bitGet (s : BitmapPmm) (i : Nat) : Bool :=
  (s.bitmap (i / 64)).testBit (i % 64)

/-- The scan `for idx in 0..bitmap_size_u64` of `allocate_frame_internal`,
looking for the first word `≠ !0`; `k` is the number of indices left to visit
starting at `i`. -/
def find_nonfull (w : Nat → Nat) : Nat → Nat → Option Nat
  | _, 0 => none
  | i, k + 1 => if w i ≠ UMAX then some i else find_nonfull w (i + 1) k

/-- `u64::trailing_zeros`, bit-by-bit; `fuel` bounds the word width. -/
def ctzAux : Nat → Nat → Nat
  | 0, _ => 0
  | fuel + 1, n => if n % 2 = 1 then 0 else ctzAux fuel (n / 2) + 1

/-- `u64::trailing_zeros` (64 on the zero word). -/
def trailing_zeros (n : Nat) : Nat := if n = 0 then 64 else ctzAux 64 n

/-- `BitmapPmm::allocate_frame_internal` (pmm.rs lines 126-145). -/
def allocate_frame_internal (s : BitmapPmm) : Option Nat × BitmapPmm :=
  match find_nonfull s.bitmap 0 s.bitmap_size_u64 with
  | none => (none, s)
  | some idx =>
      let entry := s.bitmap idx
      let inverted := UMAX ^^^ entry
      let bit_idx := trailing_zeros inverted
      let frame_idx := idx * 64 + bit_idx
      if s.total_frames ≤ frame_idx then (none, s)
      else (some (frame_idx * PAGE_SIZE), mark_used s frame_idx)

/-- `BitmapPmm::free_frame_internal`. -/
def free_frame_internal (s : BitmapPmm) (phys_addr : Nat) : BitmapPmm :=
  mark_free s (phys_addr / PAGE_SIZE)

/-- Witness for `allocate_frame_internal_spec`: a one-word bitmap whose word 0
has bit 0 clear. -/
def allocTestState : BitmapPmm :=
  { bitmap := fun j => if j = 0 then UMAX - 1 else 0
    total_frames := 5
    bitmap_size_u64 := 1
    bitmap_start_addr := 4096 }

/-- Which frames the `ConventionalMemory` pass of `init` clears: frame `i` is
freed iff some type-7 entry's page range covers it and it is in bounds. -/
def freedBy (mmap : List MemoryDescriptor) (tf i : Nat) : Bool :=
  mmap.any fun d =>
    d.type_ == 7 && decide (d.phys_start / PAGE_SIZE ≤ i ∧
      i < d.phys_start / PAGE_SIZE + d.page_count ∧ i < tf)

/-- Frame `i` lies fully inside the `ConventionalMemory` entry `d`
(`[i*4096, (i+1)*4096) ⊆ [phys_start, phys_start + page_count*4096)`). -/
def fullyInside (mmap : List MemoryDescriptor) (i : Nat) : Prop :=
  ∃ d ∈ mmap, d.type_ = 7 ∧ d.phys_start ≤ i * PAGE_SIZE ∧
    (i + 1) * PAGE_SIZE ≤ d.phys_start + d.page_count * PAGE_SIZE

/-- Frame `i` is disjoint from every `ConventionalMemory` entry. -/
def outsideAll (mmap : List MemoryDescriptor) (i : Nat) : Prop :=
  ∀ d ∈ mmap, d.type_ = 7 →
    ((i + 1) * PAGE_SIZE ≤ d.phys_start ∨ d.phys_start + d.page_count * PAGE_SIZE ≤ i * PAGE_SIZE)

/-- Frame `i` is one of the frames occupied by the bitmap itself. -/
def inBitmapSelf (s : BitmapPmm) (i : Nat) : Prop :=
  s.bitmap_start_addr / PAGE_SIZE ≤ i ∧
    i < s.bitmap_start_addr / PAGE_SIZE + (s.bitmap_size_u64 * 8 + PAGE_SIZE - 1) / PAGE_SIZE

/-- Concrete firmware map for the `init_whitelist` witness: one
`ConventionalMemory` entry of 4 pages at physical 0x1000. -/
def wMmap : List MemoryDescriptor := [⟨7, 4096, 4⟩]

/-- 512 KiB of physical memory for the witness (128 frames). -/
def wMax : Nat := 4096 * 128

end Pmm

/-!
## Syscalls (src/kernel/src/syscalls.rs)

Handlers are modelled as pure functions of their arguments and the global
state they touch; return values are `Int` with i64 semantics (negative
values are negated errnos).  `i64ofU64` is Rust's `as i64` cast of a u64.
-/

namespace Syscalls

/-- Rust's `x as i64` for `x : u64` (two's-complement reinterpretation). -/
def i64ofU64 (n : Nat) : Int :=
  if n < 2 ^ 63 then (n : Int) else (n : Int) - 2 ^ 64

/-- Initial value of `CURRENT_BRK` (`0x800_0000`). -/
def CURRENT_BRK_INIT : Nat := 0x8000000

/-- `sys_brk` (syscalls.rs lines 343-366): takes the current break and the
argument, returns (result, new break).  All three branches of the source's
`if` chain store `addr` and return it. -/
def sys_brk (current_brk addr : Nat) : Int × Nat :=
  if addr = 0 then (i64ofU64 current_brk, current_brk)
  else if 0x8000000 ≤ addr ∧ addr < 0x100000000 then (i64ofU64 addr, addr)
  else if addr < current_brk then (i64ofU64 addr, addr)
  else (i64ofU64 addr, addr)

/-- `sys_read` (syscalls.rs lines 322-325): ignores its file descriptor and
always returns 0 (EOF). -/
def sys_read (_fd _buf _count : Nat) : Int := 0

/-- `MMAP_NEXT`'s initial value (`0x480000`). -/
def MMAP_NEXT_INIT : Nat := 0x480000

/-- `MMAP_END` (`0x500000`, matching `MMAP_POOL_END` in elf_loader.rs). -/
def MMAP_END : Nat := 0x500000

/-- `sys_mmap` (syscalls.rs lines 372-405): takes the pool cursor
`MMAP_NEXT` and the four used arguments, returns (result, new cursor).
All arithmetic is u64 with release-profile overflow semantics, so both
sums wrap at `2^64`: the rounding `(length + 0xFFF) & !0xFFF` and the sum
`MMAP_NEXT + aligned_len` used for the pool-bound check and the cursor
advance. -/
def sys_mmap (mmap_next addr length _prot _flags : Nat) : Int × Nat :=
  let aligned_len := ((length + 0xFFF) % 2 ^ 64) &&& (2 ^ 64 - 0x1000)
  if addr ≠ 0 ∧ 0x1000 ≤ addr then (i64ofU64 addr, mmap_next)
  else if MMAP_END < (mmap_next + aligned_len) % 2 ^ 64 then (-12, mmap_next)
  else (i64ofU64 mmap_next, (mmap_next + aligned_len) % 2 ^ 64)

/-- `SEED`'s compile-time initial value in `sys_getrandom`. -/
def SEED_INIT : Nat := 0x12345678DEADBEEF

/-- One step of the byte loop in `sys_getrandom`:
`SEED = SEED.wrapping_mul(6364136223846793005).wrapping_add(1)`. -/
def lcg_next (seed : Nat) : Nat := (seed * 6364136223846793005 + 1) % 2 ^ 64

/-- The byte written after a step: `(SEED >> 33) as u8`. -/
def lcg_byte (seed : Nat) : Nat := (seed >>> 33) % 256

/-- The loop `for byte in slice.iter_mut()` of `sys_getrandom`: returns the
bytes written and the final seed. -/
def getrandom_fill (seed : Nat) : Nat → List Nat × Nat
  | 0 => ([], seed)
  | n + 1 =>
      let seed2 := lcg_next seed
      let rest := getrandom_fill seed2 n
      (lcg_byte seed2 :: rest.1, rest.2)

/-- `sys_getrandom` (syscalls.rs lines 513-529): fills the buffer from the
LCG and returns `buflen`, ignoring `flags`. -/
def sys_getrandom (seed buflen _flags : Nat) : List Nat × Nat × Int :=
  let r := getrandom_fill seed buflen
  (r.1, r.2, i64ofU64 buflen)

/-- UTF-8 continuation byte (`0x80..=0xBF`). -/
def isCont (b : Nat) : Bool := decide (0x80 ≤ b ∧ b ≤ 0xBF)

/-- Valid second byte of a 3-byte sequence, given the lead byte
(rejects overlongs via `0xE0` and surrogates via `0xED`). -/
def isCont3 (b b2 : Nat) : Bool :=
  if b = 0xE0 then decide (0xA0 ≤ b2 ∧ b2 ≤ 0xBF)
  else if b = 0xED then decide (0x80 ≤ b2 ∧ b2 ≤ 0x9F)
  else isCont b2

/-- Valid second byte of a 4-byte sequence, given the lead byte
(rejects overlongs via `0xF0` and values beyond U+10FFFF via `0xF4`). -/
def isCont4 (b b2 : Nat) : Bool :=
  if b = 0xF0 then decide (0x90 ≤ b2 ∧ b2 ≤ 0xBF)
  else if b = 0xF4 then decide (0x80 ≤ b2 ∧ b2 ≤ 0x8F)
  else isCont b2

/-- `core::str::from_utf8` combined with `str::chars`: decodes a byte list
to its scalar values, or `none` when the bytes are not valid UTF-8. -/
def utf8Decode : List Nat → Option (List Nat)
  | [] => some []
  | b :: rest =>
    if b < 0x80 then (utf8Decode rest).map (fun cs => b :: cs)
    else if 0xC2 ≤ b ∧ b ≤ 0xDF then
      match rest with
      | b2 :: rest2 =>
        if isCont b2 then
          (utf8Decode rest2).map (fun cs => ((b - 0xC0) * 0x40 + (b2 - 0x80)) :: cs)
        else none
      | [] => none
    else if 0xE0 ≤ b ∧ b ≤ 0xEF then
      match rest with
      | b2 :: b3 :: rest3 =>
        if isCont3 b b2 && isCont b3 then
          (utf8Decode rest3).map
            (fun cs => ((b - 0xE0) * 0x1000 + (b2 - 0x80) * 0x40 + (b3 - 0x80)) :: cs)
        else none
      | _ => none
    else if 0xF0 ≤ b ∧ b ≤ 0xF4 then
      match rest with
      | b2 :: b3 :: b4 :: rest4 =>
        if isCont4 b b2 && isCont b3 && isCont b4 then
          (utf8Decode rest4).map
            (fun cs => ((b - 0xF0) * 0x40000 + (b2 - 0x80) * 0x1000 +
              (b3 - 0x80) * 0x40 + (b4 - 0x80)) :: cs)
        else none
      | _ => none
    else none

/-- `sys_write` (syscalls.rs lines 293-319), applied to the `count`-byte user
buffer: returns (return value, code points sent to the framebuffer console
via `print_char`, bytes emitted to the serial sink).  When the buffer is
valid UTF-8 the console gets its characters and the serial sink its bytes
(`format_args!("{}", s)`); otherwise each raw byte is printed to the console
as a `char` and nothing reaches the serial sink. -/
def sys_write (fd : Nat) (buf : List Nat) : Int × List Nat × List Nat :=
  if fd ≠ 1 ∧ fd ≠ 2 then (-9, [], [])
  else
    match utf8Decode buf with
    | some cps => (i64ofU64 buf.length, cps, buf)
    | none => (i64ofU64 buf.length, buf, [])

/-! ### getrandom -/

/-- The LCG byte stream of length `n` from a given seed (specification-side
description of the orbit). -/
def lcg_stream (seed : Nat) : Nat → List Nat
  | 0 => []
  | n + 1 => lcg_byte (lcg_next seed) :: lcg_stream (lcg_next seed) n

end Syscalls

/-!
## ELF loader (src/kernel/src/elf_loader.rs)

User virtual memory is modelled directly: `Nat → Nat` maps a byte address to
the 64-bit word stored there for the stack writer (`write_to_stack` performs
aligned u64 stores at distinct addresses), and to the byte stored there for
segment loading.  The HHDM physical detour of the source (translate the
page, write through `phys + hhdm + offset`) reads and writes exactly the
memory backing these virtual addresses, so the embedding keys memory by the
user virtual address.
-/

namespace ElfLoader

/-- `USER_BASE_ADDR` (4 MiB, base for PIE executables). -/
def USER_BASE_ADDR : Nat := 0x400000

/-- `USER_STACK_BOTTOM` (top of the user stack region). -/
def USER_STACK_BOTTOM : Nat := 0x7FFFFFFF0000

/-- `USER_STACK_SIZE` (16 pages). -/
def USER_STACK_SIZE : Nat := 16 * 4096

/-- The stack pointer chosen by `setup_user_stack`:
`(stack_top - 256) & !0xF`. -/
def stack_sp : Nat := (USER_STACK_BOTTOM - 256) &&& (2 ^ 64 - 16)

/-- The `write_to_stack` closure: a u64 store through the page tables; it
writes only where translation succeeds, i.e. inside the freshly mapped
stack range. -/
def write_to_stack (m : Nat → Nat) (addr value : Nat) : Nat → Nat :=
  if USER_STACK_BOTTOM - USER_STACK_SIZE ≤ addr ∧ addr < USER_STACK_BOTTOM then
    fun a => if a = addr then value % 2 ^ 64 else m a
  else m

/-- `setup_user_stack` (elf_loader.rs lines 457-609), parameterized by the
ELF header fields it reads (`ph_offset`, `ph_count`, `ph_entry_size`,
`entry_point`, and whether the type is `SharedObject`).  The stack pages are
mapped and zeroed, then argc/argv/envp and the auxiliary vector are written
upward from `sp`; the function returns `sp`.  Returns (sp, memory). -/
def setup_user_stack (phdr_offset phnum phent entry : Nat) (is_pie : Bool) :
    Nat × (Nat → Nat) :=
  let base_addr := if is_pie then USER_BASE_ADDR else 0
  let phdr_addr := (base_addr + phdr_offset) % 2 ^ 64
  let entry_addr := (base_addr + entry) % 2 ^ 64
  let m0 : Nat → Nat := fun _ => 0
  let sp := stack_sp
  let m1 := write_to_stack m0 sp 0                              -- argc = 0
  let m2 := write_to_stack m1 (sp + 8) 0                        -- argv[0] = NULL
  let m3 := write_to_stack m2 (sp + 16) 0                       -- envp[0] = NULL
  let m4 := write_to_stack m3 (sp + 24) 3                       -- AT_PHDR
  let m5 := write_to_stack m4 (sp + 32) phdr_addr
  let m6 := write_to_stack m5 (sp + 40) 4                       -- AT_PHENT
  let m7 := write_to_stack m6 (sp + 48) phent
  let m8 := write_to_stack m7 (sp + 56) 5                       -- AT_PHNUM
  let m9 := write_to_stack m8 (sp + 64) phnum
  let m10 := write_to_stack m9 (sp + 72) 6                      -- AT_PAGESZ
  let m11 := write_to_stack m10 (sp + 80) 4096
  let m12 := write_to_stack m11 (sp + 88) 7                     -- AT_BASE
  let m13 := write_to_stack m12 (sp + 96) 0
  let m14 := write_to_stack m13 (sp + 104) 9                    -- AT_ENTRY
  let m15 := write_to_stack m14 (sp + 112) entry_addr
  let m16 := write_to_stack m15 (sp + 120) 25                   -- AT_RANDOM
  let m17 := write_to_stack m16 (sp + 128) (sp + 240)
  let m18 := write_to_stack m17 (sp + 136) 0                    -- AT_NULL
  let m19 := write_to_stack m18 (sp + 144) 0
  (sp, m19)

/-- A `PT_LOAD` program header as `load_segment` reads it: `p_vaddr`,
`p_memsz`, `p_filesz`, `p_offset`. -/
structure Seg where
  vaddr : Nat
  memsz : Nat
  filesz : Nat
  offset : Nat
deriving DecidableEq

/-- User address-space state during loading: which pages are mapped, and the
byte stored at each virtual address. -/
structure LoadState where
  mapped : Nat → Bool
  mem : Nat → Nat

/-- One iteration of the page loop: skip a mapped page, else map a fresh
frame and zero it (`core::ptr::write_bytes(frame_ptr, 0, 4096)`). -/
def map_zero_page (st : LoadState) (p : Nat) : LoadState :=
  if st.mapped p then st
  else
    { mapped := fun q => if q = p then true else st.mapped q
      mem := fun a => if a / 4096 = p then 0 else st.mem a }

/-- The loop `for page in Page::range_inclusive(start, end)`: `k` pages
starting at page `p`. -/
def map_zero_pages : LoadState → Nat → Nat → LoadState
  | st, _, 0 => st
  | st, p, k + 1 => map_zero_pages (map_zero_page st p) (p + 1) k

/-- The copy loop of `load_segment`: byte `off + j` of the image goes to
address `dst + j`, for `j < n` (the source walks it in page-sized chunks
through the HHDM; the net store is per byte). -/
def copy_bytes (file : Nat → Nat) (dst off : Nat) : (Nat → Nat) → Nat → Nat → Nat
  | m, 0 => m
  | m, k + 1 => fun a => if a = dst + k then file (off + k) else copy_bytes file dst off m k a

/-- `load_segment` (elf_loader.rs lines 166-282): skip empty segments, map
and zero every still-unmapped page of the relocated range, then copy
`filesz` bytes of file data. -/
def load_segment (st : LoadState) (file : Nat → Nat) (s : Seg) (base_addr : Nat) : LoadState :=
  if s.memsz = 0 then st
  else
    let vstart := base_addr + s.vaddr
    let spage := vstart / 4096
    let epage := (vstart + s.memsz - 1) / 4096
    let st1 := map_zero_pages st spage (epage + 1 - spage)
    if 0 < s.filesz then
      { st1 with mem := copy_bytes file vstart s.offset st1.mem s.filesz }
    else st1

/-- `load_user_elf` (elf_loader.rs lines 42-163) restricted to the memory it
writes: load every `PT_LOAD` segment at `base_addr` (0x400000 for PIE), then
pre-map and zero the mmap pool `[0x480000, 0x500000)` and the brk heap
`[0x8000000, 0x8100000)`.  For PIE the relocation pass is skipped (the
`process_relocations` call is commented out in the source), so no
`R_X86_64_RELATIVE` fixups are applied. -/
def load_user_elf (file : Nat → Nat) (segs : List Seg) (is_pie : Bool)
    (st0 : LoadState) : LoadState :=
  let base_addr := if is_pie then USER_BASE_ADDR else 0
  let st1 := segs.foldl (fun st s => load_segment st file s base_addr) st0
  let st2 := map_zero_pages st1 (0x480000 / 4096) ((0x500000 - 1) / 4096 + 1 - 0x480000 / 4096)
  let st3 := map_zero_pages st2 (0x8000000 / 4096) ((0x8100000 - 1) / 4096 + 1 - 0x8000000 / 4096)
  st3

/-- `[base + vaddr, base + vaddr + memsz)`, the relocated extent of a segment. -/
def seg_range (base : Nat) (s : Seg) (a : Nat) : Prop :=
  base + s.vaddr ≤ a ∧ a < base + s.vaddr + s.memsz

/-- The file content of a segment, zero-extended over its BSS: what address
`a` of the segment's extent must hold after loading. -/
def seg_content (base : Nat) (file : Nat → Nat) (s : Seg) (a : Nat) : Nat :=
  if a - (base + s.vaddr) < s.filesz then file (s.offset + (a - (base + s.vaddr))) else 0

/-- Non-overlapping extents (ELF images list `PT_LOAD` segments in ascending
disjoint ranges). -/
def seg_disjoint (s t : Seg) : Prop :=
  s.vaddr + s.memsz ≤ t.vaddr ∨ t.vaddr + t.memsz ≤ s.vaddr

/-- Loading invariant: segments of `done` hold their zero-extended file
content in fully mapped pages, and every byte of a mapped page outside all
loaded extents is zero. -/
def LoadInv (base : Nat) (file : Nat → Nat) (done : List Seg) (st : LoadState) : Prop :=
  (∀ s ∈ done, ∀ a, seg_range base s a →
      st.mem a = seg_content base file s a ∧ st.mapped (a / 4096) = true)
  ∧ (∀ a, st.mapped (a / 4096) = true → (∀ s ∈ done, ¬ seg_range base s a) → st.mem a = 0)

/-- Witness image data: one 32-byte segment with 16 file bytes. -/
def wSeg : Seg := ⟨0x1000, 0x20, 0x10, 0x40⟩

/-- Witness file bytes. -/
def wFile : Nat → Nat := fun k => (k + 7) % 256

/-- Witness initial state: nothing mapped, memory full of 0xAB garbage. -/
def wLoad0 : LoadState := ⟨fun _ => false, fun _ => 0xAB⟩

end ElfLoader

/-!
## Locking structure of the frame allocator's public API

`src/kernel/src/spinlock.rs` implements a busy-wait spinlock whose `lock`
acquires with a compare-exchange and whose guard's `Drop` releases; neither
touches the interrupt flag.  The public PMM wrappers (pmm.rs lines 194-219)
are `PMM.lock().init(...)`, `PMM.lock().allocate_frame_internal()` and
`PMM.lock().free_frame_internal(...)`: lock, run the critical section, drop
the guard.  Unlike the heap allocator (heap_allocator.rs, which wraps its
lock in `interrupts::without_interrupts`), none of them disables interrupts.
The traces below record, in order, the lock and interrupt-flag events each
public operation performs. -/

namespace Locking

/-- Lock and interrupt-flag events. -/
inductive LockEvent where
  | acquire
  | release
  | irq_off
  | irq_on
deriving DecidableEq

/-- `Spinlock::lock` (spinlock.rs lines 23-39): compare-exchange loop, then
the lock is held.  No interrupt-flag change. -/
def spinlock_lock_trace : List LockEvent := [LockEvent.acquire]

/-- `Drop for SpinlockGuard` (spinlock.rs lines 61-66): release. -/
def spinlock_drop_trace : List LockEvent := [LockEvent.release]

/-- `pmm::init` (pmm.rs lines 194-211): `PMM.lock().init(...)`, guard dropped
at return. -/
def pmm_init_trace : List LockEvent := spinlock_lock_trace ++ spinlock_drop_trace

/-- `pmm::allocate_frame` (pmm.rs lines 213-215):
`PMM.lock().allocate_frame_internal()`. -/
def pmm_allocate_frame_trace : List LockEvent := spinlock_lock_trace ++ spinlock_drop_trace

/-- `pmm::free_frame` (pmm.rs lines 217-219):
`PMM.lock().free_frame_internal(...)`. -/
def pmm_free_frame_trace : List LockEvent := spinlock_lock_trace ++ spinlock_drop_trace

/-- The guard discipline the claim asserts: interrupts disabled first, then
the lock taken, and the lock released before interrupts are re-enabled. -/
def guardedIrqThenLock (t : List LockEvent) : Prop :=
  ∃ body, t = LockEvent.irq_off :: LockEvent.acquire ::
    (body ++ [LockEvent.release, LockEvent.irq_on])

end Locking

/-! ## Theorems -/

/-! ### Basic facts about bit marking -/

namespace Pmm

theorem bitGet_mark_used (s : BitmapPmm) (i j : Nat) :
    bitGet (mark_used s i) j = (bitGet s j || decide (j = i)) := by
  unfold bitGet mark_used
  simp only
  by_cases h : j / 64 = i / 64
  · rw [if_pos h, h, Nat.one_shiftLeft, Nat.testBit_or, Nat.testBit_two_pow]
    by_cases hji : j = i
    · simp [hji]
    · have : ¬ i % 64 = j % 64 := by
        intro hm
        exact hji (by omega)
      simp [hji, this]
  · rw [if_neg h]
    have hji : ¬ j = i := by intro he; exact h (by rw [he])
    simp [hji]

theorem bitGet_mark_free (s : BitmapPmm) (i j : Nat) :
    bitGet (mark_free s i) j = (bitGet s j && !decide (j = i)) := by
  unfold bitGet mark_free
  simp only
  by_cases h : j / 64 = i / 64
  · rw [if_pos h, h, Nat.one_shiftLeft, Nat.testBit_and, Nat.testBit_xor, UMAX,
      Nat.testBit_two_pow_sub_one, Nat.testBit_two_pow]
    have h64 : j % 64 < 64 := Nat.mod_lt _ (by norm_num)
    by_cases hji : j = i
    · simp [hji, Nat.mod_lt i (show 0 < 64 by norm_num)]
    · have : ¬ i % 64 = j % 64 := by
        intro hm
        exact hji (by omega)
      simp [hji, this, h64]
  · rw [if_neg h]
    have hji : ¬ j = i := by intro he; exact h (by rw [he])
    simp [hji]

theorem mark_used_fields (s : BitmapPmm) (i : Nat) :
    (mark_used s i).total_frames = s.total_frames ∧
    (mark_used s i).bitmap_size_u64 = s.bitmap_size_u64 ∧
    (mark_used s i).bitmap_start_addr = s.bitmap_start_addr := by
  unfold mark_used; exact ⟨rfl, rfl, rfl⟩

theorem mark_free_fields (s : BitmapPmm) (i : Nat) :
    (mark_free s i).total_frames = s.total_frames ∧
    (mark_free s i).bitmap_size_u64 = s.bitmap_size_u64 ∧
    (mark_free s i).bitmap_start_addr = s.bitmap_start_addr := by
  unfold mark_free; exact ⟨rfl, rfl, rfl⟩

/-! ### Trailing-zero count and word scan -/

theorem ctzAux_spec (fuel : Nat) : ∀ n, n ≠ 0 → n < 2 ^ fuel →
    n.testBit (ctzAux fuel n) = true ∧ ∀ j < ctzAux fuel n, n.testBit j = false := by
  induction fuel with
  | zero => intro n hn hlt; omega
  | succ fuel ih =>
    intro n hn hlt
    unfold ctzAux
    by_cases h : n % 2 = 1
    · simp [h]
    · have hhalf_ne : n / 2 ≠ 0 := by omega
      have hhalf_lt : n / 2 < 2 ^ fuel := by
        have : 2 ^ (fuel + 1) = 2 ^ fuel * 2 := by ring
        omega
      obtain ⟨h1, h2⟩ := ih (n / 2) hhalf_ne hhalf_lt
      rw [if_neg h]
      refine ⟨by rw [Nat.testBit_add_one]; exact h1, ?_⟩
      intro j hj
      match j with
      | 0 => simp [h]
      | j' + 1 =>
        rw [Nat.testBit_add_one]
        exact h2 j' (by omega)

theorem find_nonfull_none (w : Nat → Nat) :
    ∀ k i, find_nonfull w i k = none ↔ ∀ j < k, w (i + j) = UMAX := by
  intro k
  induction k with
  | zero => intro i; simp [find_nonfull]
  | succ k ih =>
    intro i
    unfold find_nonfull
    by_cases h : w i ≠ UMAX
    · rw [if_pos h]
      constructor
      · intro hcon; exact absurd hcon (by simp)
      · intro hall
        exact absurd (by simpa using hall 0 (by omega)) h
    · rw [if_neg h]
      push_neg at h
      rw [ih (i + 1)]
      constructor
      · intro hall j hj
        match j with
        | 0 => simpa using h
        | j' + 1 =>
          have := hall j' (by omega)
          rw [show i + (j' + 1) = i + 1 + j' by omega]
          exact this
      · intro hall j hj
        have := hall (j + 1) (by omega)
        rw [show i + 1 + j = i + (j + 1) by omega]
        exact this

theorem find_nonfull_some (w : Nat → Nat) :
    ∀ k i idx, find_nonfull w i k = some idx →
      i ≤ idx ∧ idx < i + k ∧ w idx ≠ UMAX ∧ ∀ j, i ≤ j → j < idx → w j = UMAX := by
  intro k
  induction k with
  | zero => intro i idx h; exact absurd h (by simp [find_nonfull])
  | succ k ih =>
    intro i idx h
    unfold find_nonfull at h
    by_cases hw : w i ≠ UMAX
    · rw [if_pos hw] at h
      obtain rfl : i = idx := by injection h
      exact ⟨Nat.le_refl _, by omega, hw, fun j h1 h2 => by omega⟩
    · rw [if_neg hw] at h
      push_neg at hw
      obtain ⟨h1, h2, h3, h4⟩ := ih (i + 1) idx h
      refine ⟨by omega, by omega, h3, ?_⟩
      intro j hj1 hj2
      rcases Nat.eq_or_lt_of_le hj1 with rfl | hlt
      · exact hw
      · exact h4 j (by omega) hj2

theorem bitGet_of_word_umax {s : BitmapPmm} {i : Nat} (h : s.bitmap (i / 64) = UMAX) :
    bitGet s i = true := by
  unfold bitGet
  rw [h, UMAX, Nat.testBit_two_pow_sub_one]
  simp
  omega

/-- Claim C2: `allocate_frame_internal` returns `None` iff every bit below
`total_frames` is set; when it returns an address, that address is
`i * 4096` for the least unset bit `i`, which it sets.  The two
hypotheses say that the words are genuine 64-bit values and that the
bitmap really covers `total_frames` bits, as `init` establishes
(`bitmap_size_u64 = ceil(total_frames/64)`). -/
theorem allocate_frame_internal_spec (s : BitmapPmm)
    (hw : ∀ j, s.bitmap j < 2 ^ 64)
    (htf : s.total_frames ≤ 64 * s.bitmap_size_u64) :
    ((allocate_frame_internal s).1 = none ↔ ∀ i < s.total_frames, bitGet s i = true)
    ∧ (∀ a t, allocate_frame_internal s = (some a, t) →
        ∃ i, a = i * PAGE_SIZE ∧ i < s.total_frames ∧ bitGet s i = false ∧
          (∀ j < i, bitGet s j = true) ∧ t = mark_used s i) := by
  cases hfind : find_nonfull s.bitmap 0 s.bitmap_size_u64 with
  | none =>
    have hall : ∀ j < s.bitmap_size_u64, s.bitmap j = UMAX := by
      intro j hj
      have := (find_nonfull_none s.bitmap s.bitmap_size_u64 0).mp hfind j hj
      simpa using this
    have hres : allocate_frame_internal s = (none, s) := by
      unfold allocate_frame_internal
      rw [hfind]
    rw [hres]
    constructor
    · simp only [true_iff]
      intro i hi
      exact bitGet_of_word_umax (hall (i / 64) (by omega))
    · intro a t h
      simp at h
  | some idx =>
    obtain ⟨-, hidx_lt, hne, hbefore⟩ := find_nonfull_some s.bitmap s.bitmap_size_u64 0 idx hfind
    set entry := s.bitmap idx with hentry
    set inverted := UMAX ^^^ entry with hinverted
    have hinv_ne : inverted ≠ 0 := by
      intro h0
      apply hne
      have : UMAX ^^^ (UMAX ^^^ entry) = UMAX ^^^ 0 := by rw [← hinverted, h0]
      rwa [← Nat.xor_assoc, Nat.xor_self, Nat.zero_xor, Nat.xor_zero] at this
    have humax_lt : UMAX < 2 ^ 64 := by unfold UMAX; omega
    have hinv_lt : inverted < 2 ^ 64 := Nat.xor_lt_two_pow humax_lt (hw idx)
    have hctz : trailing_zeros inverted = ctzAux 64 inverted := by
      unfold trailing_zeros
      rw [if_neg hinv_ne]
    obtain ⟨hbit, hleast⟩ := ctzAux_spec 64 inverted hinv_ne hinv_lt
    set c := ctzAux 64 inverted with hc
    have hc64 : c < 64 := by
      by_contra hge
      have : inverted < 2 ^ c :=
        Nat.lt_of_lt_of_le hinv_lt (Nat.pow_le_pow_right (by omega) (by omega))
      rw [Nat.testBit_lt_two_pow this] at hbit
      exact Bool.false_ne_true hbit
    have hflip : ∀ b, b < 64 → inverted.testBit b = !entry.testBit b := by
      intro b hb
      rw [hinverted, Nat.testBit_xor, UMAX, Nat.testBit_two_pow_sub_one]
      simp [hb]
    set frame_idx := idx * 64 + c with hfi
    have hdiv : frame_idx / 64 = idx := by omega
    have hmod : frame_idx % 64 = c := by omega
    have hbit_fi : bitGet s frame_idx = false := by
      unfold bitGet
      rw [hdiv, hmod, ← hentry]
      have := hflip c hc64
      rw [hbit] at this
      exact (Bool.not_eq_true' _).mp this.symm
    have hleast_fi : ∀ j < frame_idx, bitGet s j = true := by
      intro j hj
      rcases Nat.lt_or_ge (j / 64) idx with hlt | hge
      · exact bitGet_of_word_umax (hbefore (j / 64) (by omega) hlt)
      · have hjdiv : j / 64 = idx := by omega
        have hjmod : j % 64 < c := by omega
        unfold bitGet
        rw [hjdiv, ← hentry]
        have := hflip (j % 64) (by omega)
        rw [hleast (j % 64) hjmod] at this
        exact (Bool.not_eq_false' _).mp this.symm
    rcases Nat.lt_or_ge frame_idx s.total_frames with hok | hoom
    · have hres : allocate_frame_internal s =
          (some (frame_idx * PAGE_SIZE), mark_used s frame_idx) := by
        unfold allocate_frame_internal
        rw [hfind]
        simp only [← hentry, ← hinverted, hctz, ← hc, ← hfi]
        rw [if_neg (by omega)]
      rw [hres]
      constructor
      · simp only [reduceCtorEq, false_iff, not_forall]
        exact ⟨frame_idx, ⟨hok, by simp [hbit_fi]⟩⟩
      · intro a t h
        obtain ⟨ha, ht⟩ := Prod.mk.injEq .. ▸ h
        refine ⟨frame_idx, ?_, hok, hbit_fi, hleast_fi, ht.symm⟩
        injection ha.symm
    · have hres : allocate_frame_internal s = (none, s) := by
        unfold allocate_frame_internal
        rw [hfind]
        simp only [← hentry, ← hinverted, hctz, ← hc, ← hfi]
        rw [if_pos (by omega)]
      rw [hres]
      constructor
      · simp only [true_iff]
        intro i hi
        exact hleast_fi i (by omega)
      · intro a t h
        simp at h

theorem allocate_frame_internal_spec_witness :
    (∀ j, allocTestState.bitmap j < 2 ^ 64) ∧
    allocTestState.total_frames ≤ 64 * allocTestState.bitmap_size_u64 ∧
    (((allocate_frame_internal allocTestState).1 = none ↔
        ∀ i < allocTestState.total_frames, bitGet allocTestState i = true)
      ∧ (∀ a t, allocate_frame_internal allocTestState = (some a, t) →
          ∃ i, a = i * PAGE_SIZE ∧ i < allocTestState.total_frames ∧
            bitGet allocTestState i = false ∧
            (∀ j < i, bitGet allocTestState j = true) ∧ t = mark_used allocTestState i)) := by
  have hw : ∀ j, allocTestState.bitmap j < 2 ^ 64 := by
    intro j
    unfold allocTestState
    simp only
    split
    · decide
    · decide
  exact ⟨hw, by decide, allocate_frame_internal_spec allocTestState hw (by decide)⟩

/-! ### Characterizing `init` -/

theorem mark_region_used_fields (s : BitmapPmm) (a : Nat) :
    ∀ pc, (mark_region_used s a pc).total_frames = s.total_frames ∧
      (mark_region_used s a pc).bitmap_size_u64 = s.bitmap_size_u64 ∧
      (mark_region_used s a pc).bitmap_start_addr = s.bitmap_start_addr := by
  intro pc
  induction pc with
  | zero => exact ⟨rfl, rfl, rfl⟩
  | succ pc ih =>
    unfold mark_region_used at ih ⊢
    rw [List.range_succ, List.foldl_append, List.foldl_cons, List.foldl_nil]
    simpa [mark_used] using ih

theorem mark_region_free_fields (s : BitmapPmm) (a : Nat) :
    ∀ pc, (mark_region_free s a pc).total_frames = s.total_frames ∧
      (mark_region_free s a pc).bitmap_size_u64 = s.bitmap_size_u64 ∧
      (mark_region_free s a pc).bitmap_start_addr = s.bitmap_start_addr := by
  intro pc
  induction pc with
  | zero => exact ⟨rfl, rfl, rfl⟩
  | succ pc ih =>
    unfold mark_region_free at ih ⊢
    rw [List.range_succ, List.foldl_append, List.foldl_cons, List.foldl_nil]
    split
    · simpa [mark_free] using ih
    · exact ih

theorem mark_region_used_bitGet (s : BitmapPmm) (a : Nat) :
    ∀ pc i, bitGet (mark_region_used s a pc) i =
      (bitGet s i || decide (a / PAGE_SIZE ≤ i ∧ i < a / PAGE_SIZE + pc)) := by
  intro pc
  induction pc with
  | zero =>
    intro i
    have hno : ¬ (a / PAGE_SIZE ≤ i ∧ i < a / PAGE_SIZE + 0) := by omega
    simp [mark_region_used, hno]
  | succ pc ih =>
    intro i
    unfold mark_region_used at ih ⊢
    rw [List.range_succ, List.foldl_append, List.foldl_cons, List.foldl_nil,
      bitGet_mark_used, ih]
    have hiff : (a / PAGE_SIZE ≤ i ∧ i < a / PAGE_SIZE + (pc + 1)) ↔
        ((a / PAGE_SIZE ≤ i ∧ i < a / PAGE_SIZE + pc) ∨ i = a / PAGE_SIZE + pc) := by
      omega
    rw [decide_eq_decide.mpr hiff, Bool.decide_or, Bool.or_assoc]

theorem mark_region_free_bitGet (s : BitmapPmm) (a : Nat) :
    ∀ pc i, bitGet (mark_region_free s a pc) i =
      (bitGet s i &&
        !decide (a / PAGE_SIZE ≤ i ∧ i < a / PAGE_SIZE + pc ∧ i < s.total_frames)) := by
  intro pc
  induction pc with
  | zero =>
    intro i
    have hno : ¬ (a / PAGE_SIZE ≤ i ∧ i < a / PAGE_SIZE + 0 ∧ i < s.total_frames) := by omega
    unfold mark_region_free
    rw [List.range_zero, List.foldl_nil, decide_eq_false hno]
    simp
  | succ pc ih =>
    intro i
    have htf := (mark_region_free_fields s a pc).1
    unfold mark_region_free at htf ih ⊢
    rw [List.range_succ, List.foldl_append, List.foldl_cons, List.foldl_nil]
    rw [htf]
    split
    · rename_i hlt
      rw [bitGet_mark_free, ih]
      have hiff : (a / PAGE_SIZE ≤ i ∧ i < a / PAGE_SIZE + (pc + 1) ∧ i < s.total_frames) ↔
          ((a / PAGE_SIZE ≤ i ∧ i < a / PAGE_SIZE + pc ∧ i < s.total_frames) ∨
            i = a / PAGE_SIZE + pc) := by
        omega
      rw [decide_eq_decide.mpr hiff, Bool.decide_or, Bool.not_or, ← Bool.and_assoc]
    · rename_i hge
      rw [ih]
      have hiff : (a / PAGE_SIZE ≤ i ∧ i < a / PAGE_SIZE + pc ∧ i < s.total_frames) ↔
          (a / PAGE_SIZE ≤ i ∧ i < a / PAGE_SIZE + (pc + 1) ∧ i < s.total_frames) := by
        omega
      rw [decide_eq_decide.mpr hiff]

theorem freepass_fields (mmap : List MemoryDescriptor) :
    ∀ s : BitmapPmm,
      (mmap.foldl
        (fun t e => if e.type_ = 7 then mark_region_free t e.phys_start e.page_count else t)
          s).total_frames = s.total_frames ∧
      (mmap.foldl
        (fun t e => if e.type_ = 7 then mark_region_free t e.phys_start e.page_count else t)
          s).bitmap_size_u64 = s.bitmap_size_u64 ∧
      (mmap.foldl
        (fun t e => if e.type_ = 7 then mark_region_free t e.phys_start e.page_count else t)
          s).bitmap_start_addr = s.bitmap_start_addr := by
  induction mmap with
  | nil => intro s; exact ⟨rfl, rfl, rfl⟩
  | cons d rest ih =>
    intro s
    rw [List.foldl_cons]
    by_cases h7 : d.type_ = 7
    · rw [if_pos h7]
      obtain ⟨h1, h2, h3⟩ := ih (mark_region_free s d.phys_start d.page_count)
      obtain ⟨g1, g2, g3⟩ := mark_region_free_fields s d.phys_start d.page_count
      exact ⟨h1.trans g1, h2.trans g2, h3.trans g3⟩
    · rw [if_neg h7]
      exact ih s

theorem freepass_bitGet (mmap : List MemoryDescriptor) :
    ∀ (s : BitmapPmm) (i : Nat),
      bitGet (mmap.foldl
        (fun t e => if e.type_ = 7 then mark_region_free t e.phys_start e.page_count else t) s) i
      = (bitGet s i && !(freedBy mmap s.total_frames i)) := by
  induction mmap with
  | nil => intro s i; simp [freedBy]
  | cons d rest ih =>
    intro s i
    rw [List.foldl_cons]
    by_cases h7 : d.type_ = 7
    · rw [if_pos h7, ih, (mark_region_free_fields ..).1, mark_region_free_bitGet]
      have hcl : freedBy (d :: rest) s.total_frames i =
          (decide (d.phys_start / PAGE_SIZE ≤ i ∧
              i < d.phys_start / PAGE_SIZE + d.page_count ∧ i < s.total_frames)
            || freedBy rest s.total_frames i) := by
        simp [freedBy, h7]
      rw [hcl, Bool.not_or, ← Bool.and_assoc]
    · rw [if_neg h7, ih]
      have hcl : freedBy (d :: rest) s.total_frames i = freedBy rest s.total_frames i := by
        simp [freedBy, h7]
      rw [hcl]

/-- The state built by the body of `init` once a bitmap region is found,
generalized over the freshly filled state `s0`: fields are unchanged. -/
theorem built_fields (mmap : List MemoryDescriptor) (s0 : BitmapPmm) (a pg : Nat) :
    (mark_used (mark_region_used
        (mmap.foldl
          (fun t e => if e.type_ = 7 then mark_region_free t e.phys_start e.page_count else t) s0)
        a pg) 0).total_frames = s0.total_frames
    ∧ (mark_used (mark_region_used
        (mmap.foldl
          (fun t e => if e.type_ = 7 then mark_region_free t e.phys_start e.page_count else t) s0)
        a pg) 0).bitmap_size_u64 = s0.bitmap_size_u64
    ∧ (mark_used (mark_region_used
        (mmap.foldl
          (fun t e => if e.type_ = 7 then mark_region_free t e.phys_start e.page_count else t) s0)
        a pg) 0).bitmap_start_addr = s0.bitmap_start_addr := by
  refine ⟨?_, ?_, ?_⟩
  · rw [(mark_used_fields _ 0).1, (mark_region_used_fields _ _ _).1, (freepass_fields _ _).1]
  · rw [(mark_used_fields _ 0).2.1, (mark_region_used_fields _ _ _).2.1,
      (freepass_fields _ _).2.1]
  · rw [(mark_used_fields _ 0).2.2, (mark_region_used_fields _ _ _).2.2,
      (freepass_fields _ _).2.2]

theorem built_bitGet (mmap : List MemoryDescriptor) (s0 : BitmapPmm) (a pg i : Nat) :
    bitGet (mark_used (mark_region_used
        (mmap.foldl
          (fun t e => if e.type_ = 7 then mark_region_free t e.phys_start e.page_count else t) s0)
        a pg) 0) i
      = (((bitGet s0 i && !(freedBy mmap s0.total_frames i))
          || decide (a / PAGE_SIZE ≤ i ∧ i < a / PAGE_SIZE + pg)) || decide (i = 0)) := by
  rw [bitGet_mark_used, mark_region_used_bitGet, freepass_bitGet]

theorem bitGet_fill (tf sz sa i : Nat) :
    bitGet ⟨fun j => if j < sz then UMAX else 0, tf, sz, sa⟩ i = decide (i / 64 < sz) := by
  unfold bitGet
  dsimp only
  by_cases hsz : i / 64 < sz
  · rw [if_pos hsz, UMAX, Nat.testBit_two_pow_sub_one]
    have hm : i % 64 < 64 := Nat.mod_lt _ (by norm_num)
    simp [hsz, hm]
  · rw [if_neg hsz]
    simp [hsz]

theorem init_char (mmap : List MemoryDescriptor) (max_phys_addr : Nat) (s : BitmapPmm)
    (h : init mmap max_phys_addr = some s) :
    s.total_frames = max_phys_addr / PAGE_SIZE
    ∧ s.bitmap_size_u64 = (max_phys_addr / PAGE_SIZE + 63) / 64
    ∧ (∃ d, find_bitmap_region mmap ((max_phys_addr / PAGE_SIZE + 63) / 64 * 8) = some d ∧
        s.bitmap_start_addr = d.phys_start)
    ∧ ∀ i, bitGet s i =
        ((decide (i / 64 < s.bitmap_size_u64) && !(freedBy mmap s.total_frames i))
          || decide (s.bitmap_start_addr / PAGE_SIZE ≤ i ∧
               i < s.bitmap_start_addr / PAGE_SIZE +
                 (s.bitmap_size_u64 * 8 + PAGE_SIZE - 1) / PAGE_SIZE)
          || decide (i = 0)) := by
  simp only [init] at h
  rcases hfind : find_bitmap_region mmap ((max_phys_addr / PAGE_SIZE + 63) / 64 * 8) with _ | d
  · rw [hfind] at h
    exact absurd h (by simp)
  · rw [hfind] at h
    obtain rfl := Option.some.inj h
    refine ⟨(built_fields _ _ _ _).1, (built_fields _ _ _ _).2.1,
      ⟨d, rfl, (built_fields _ _ _ _).2.2⟩, ?_⟩
    intro i
    rw [built_bitGet, (built_fields _ _ _ _).1, (built_fields _ _ _ _).2.1,
      (built_fields _ _ _ _).2.2, bitGet_fill]

/-- Claim C1: after `init` succeeds, the bitmap satisfies the whitelist
invariant: every bit whose frame lies fully inside some `ConventionalMemory`
entry is zero, except bit 0 and the bits covering the bitmap itself, which
are one, and every bit whose frame lies outside every `ConventionalMemory`
entry is one.  The hypothesis `hvalid` is the `BootInfo` contract:
`max_phys_addr` bounds every `ConventionalMemory` entry (the bootloader
computes it as the maximum entry end, rounded up to 2 MiB). -/
theorem init_whitelist (mmap : List MemoryDescriptor) (max_phys_addr : Nat)
    (hvalid : ∀ d ∈ mmap, d.type_ = 7 →
      d.phys_start + d.page_count * PAGE_SIZE ≤ max_phys_addr) :
    ∀ s, init mmap max_phys_addr = some s →
      (∀ i, i < 64 * s.bitmap_size_u64 →
        (fullyInside mmap i → i ≠ 0 → ¬ inBitmapSelf s i → bitGet s i = false) ∧
        (outsideAll mmap i → bitGet s i = true)) ∧
      bitGet s 0 = true ∧
      (∀ i, inBitmapSelf s i → bitGet s i = true) := by
  intro s hinit
  obtain ⟨htf, hsz, ⟨d, hfind, hstart⟩, hbit⟩ := init_char mmap max_phys_addr s hinit
  have hfreed_of_full : ∀ i, fullyInside mmap i → freedBy mmap s.total_frames i = true := by
    rintro i ⟨e, hmem, h7, hlo, hhi⟩
    have hmax := hvalid e hmem h7
    unfold freedBy
    rw [List.any_eq_true]
    refine ⟨e, hmem, ?_⟩
    simp only [h7, beq_self_eq_true, Bool.true_and, decide_eq_true_eq]
    rw [htf]
    simp only [PAGE_SIZE] at hlo hhi hmax ⊢
    omega
  have hnotfreed_of_out : ∀ i, outsideAll mmap i → freedBy mmap s.total_frames i = false := by
    intro i hout
    rw [← Bool.not_eq_true]
    unfold freedBy
    rw [List.any_eq_true]
    rintro ⟨e, hmem, hpred⟩
    simp only [Bool.and_eq_true, beq_iff_eq, decide_eq_true_eq] at hpred
    obtain ⟨h7, hq, hlt, -⟩ := hpred
    rcases hout e hmem h7 with hcase | hcase <;>
      · simp only [PAGE_SIZE] at hq hlt hcase
        omega
  refine ⟨?_, ?_, ?_⟩
  · intro i hi
    constructor
    · intro hfull hne0 hnotbmp
      rw [hbit i, hfreed_of_full i hfull]
      unfold inBitmapSelf at hnotbmp
      rw [decide_eq_false hnotbmp, decide_eq_false hne0]
      simp
    · intro hout
      rw [hbit i, hnotfreed_of_out i hout]
      have hdiv : i / 64 < s.bitmap_size_u64 := by omega
      simp [hdiv]
  · rw [hbit 0]
    simp
  · intro i hbmp
    rw [hbit i]
    unfold inBitmapSelf at hbmp
    rw [decide_eq_true hbmp]
    simp

theorem init_whitelist_witness :
    (∀ d ∈ wMmap, d.type_ = 7 → d.phys_start + d.page_count * PAGE_SIZE ≤ wMax) ∧
    (init wMmap wMax).isSome = true ∧
    (∀ s, init wMmap wMax = some s →
      (∀ i, i < 64 * s.bitmap_size_u64 →
        (fullyInside wMmap i → i ≠ 0 → ¬ inBitmapSelf s i → bitGet s i = false) ∧
        (outsideAll wMmap i → bitGet s i = true)) ∧
      bitGet s 0 = true ∧
      (∀ i, inBitmapSelf s i → bitGet s i = true)) :=
  ⟨by decide, by rfl, init_whitelist wMmap wMax (by decide)⟩

end Pmm

/-! ### brk -/

namespace Syscalls

theorem sys_brk_nonzero (b0 x : Nat) (hx : x ≠ 0) : sys_brk b0 x = (i64ofU64 x, x) := by
  unfold sys_brk
  rw [if_neg hx]
  rcases Decidable.em (0x8000000 ≤ x ∧ x < 0x100000000) with h | h
  · rw [if_pos h]
  · rw [if_neg h]
    rcases Decidable.em (x < b0) with g | g
    · rw [if_pos g]
    · rw [if_neg g]

/-- Claim C6: `brk(0)` returns the current break unchanged; `brk(x)` for
nonzero `x` stores `x` and returns it; hence the S2 scenario
`brk(0); brk(B0+0x1000); brk(0)` returns `B0`, `B0+0x1000`, `B0+0x1000`. -/
theorem sys_brk_spec (b0 x : Nat) (hx : x ≠ 0) :
    sys_brk b0 0 = (i64ofU64 b0, b0)
    ∧ sys_brk b0 x = (i64ofU64 x, x)
    ∧ ((sys_brk b0 0).1 = i64ofU64 b0
        ∧ (sys_brk (sys_brk b0 0).2 ((sys_brk b0 0).2 + 0x1000)).1 = i64ofU64 (b0 + 0x1000)
        ∧ (sys_brk (sys_brk (sys_brk b0 0).2 ((sys_brk b0 0).2 + 0x1000)).2 0).1 =
            i64ofU64 (b0 + 0x1000)) := by
  have h0 : sys_brk b0 0 = (i64ofU64 b0, b0) := by unfold sys_brk; rw [if_pos rfl]
  have h1 : sys_brk b0 (b0 + 0x1000) = (i64ofU64 (b0 + 0x1000), b0 + 0x1000) :=
    sys_brk_nonzero b0 (b0 + 0x1000) (by omega)
  have h2 : sys_brk (b0 + 0x1000) 0 = (i64ofU64 (b0 + 0x1000), b0 + 0x1000) := by
    unfold sys_brk; rw [if_pos rfl]
  refine ⟨h0, sys_brk_nonzero b0 x hx, ?_, ?_, ?_⟩
  · rw [h0]
  · rw [h0]
    simp only
    rw [h1]
  · rw [h0]
    simp only
    rw [h1]
    simp only
    rw [h2]

theorem sys_brk_spec_witness :
    (0x8001000 : Nat) ≠ 0
    ∧ (sys_brk 0x8000000 0 = (i64ofU64 0x8000000, 0x8000000)
      ∧ sys_brk 0x8000000 0x8001000 = (i64ofU64 0x8001000, 0x8001000)
      ∧ ((sys_brk 0x8000000 0).1 = i64ofU64 0x8000000
          ∧ (sys_brk (sys_brk 0x8000000 0).2
              ((sys_brk 0x8000000 0).2 + 0x1000)).1 = i64ofU64 (0x8000000 + 0x1000)
          ∧ (sys_brk (sys_brk (sys_brk 0x8000000 0).2
              ((sys_brk 0x8000000 0).2 + 0x1000)).2 0).1 = i64ofU64 (0x8000000 + 0x1000))) :=
  ⟨by decide, sys_brk_spec 0x8000000 0x8001000 (by decide)⟩

/-! ### read -/

/-- Counterexample to claim C8 as stated: `read` on fd 1 returns 0 where the
claim demands `-EBADF` (-9). -/
theorem sys_read_badfd_counterexample : sys_read 1 0 0 = 0 ∧ sys_read 1 0 0 ≠ -9 := by
  refine ⟨rfl, ?_⟩
  rw [sys_read]
  decide

/-- Amended claim C8: `sys_read` ignores the file descriptor and returns 0
(EOF) for every fd, buffer and count. -/
theorem sys_read_spec : ∀ fd buf count : Nat, sys_read fd buf count = 0 :=
  fun _ _ _ => rfl

/-! ### write -/

/-- Counterexample to claim C7 as stated: `write(1, [0xFF], 1)` is not valid
UTF-8, so the serial sink receives nothing (not the buffer byte-for-byte),
yet the call still returns 1. -/
theorem sys_write_nonutf8_counterexample :
    sys_write 1 [0xFF] = (1, [0xFF], []) ∧ (sys_write 1 [0xFF]).2.2 ≠ [0xFF] := by
  refine ⟨by decide, ?_⟩
  have h : (sys_write 1 [0xFF]).2.2 = [] := by decide
  rw [h]
  decide

/-- Amended claim C7: for fd 1 or 2, a valid-UTF-8 buffer is copied
byte-for-byte to the serial sink and its characters to the console, and the
call returns the byte count; a non-UTF-8 buffer reaches only the console
(byte by byte) and the serial sink receives nothing, still returning the
byte count; any other fd returns `-EBADF` (-9) and emits nothing. -/
theorem sys_write_spec (fd : Nat) (buf : List Nat) (hfd : fd = 1 ∨ fd = 2) :
    (∀ cps, utf8Decode buf = some cps →
        sys_write fd buf = (i64ofU64 buf.length, cps, buf))
    ∧ (utf8Decode buf = none → sys_write fd buf = (i64ofU64 buf.length, buf, []))
    ∧ (∀ g, g ≠ 1 → g ≠ 2 → sys_write g buf = (-9, [], [])) := by
  have hcond : ¬ (fd ≠ 1 ∧ fd ≠ 2) := by
    rcases hfd with rfl | rfl <;> simp
  refine ⟨?_, ?_, ?_⟩
  · intro cps hdec
    unfold sys_write
    rw [if_neg hcond, hdec]
  · intro hdec
    unfold sys_write
    rw [if_neg hcond, hdec]
  · intro g hg1 hg2
    unfold sys_write
    rw [if_pos ⟨hg1, hg2⟩]

theorem sys_write_spec_witness :
    ((1 : Nat) = 1 ∨ (1 : Nat) = 2)
    ∧ ((∀ cps, utf8Decode [104, 101, 108, 108, 111, 10] = some cps →
          sys_write 1 [104, 101, 108, 108, 111, 10] =
            (i64ofU64 (List.length [104, 101, 108, 108, 111, 10]), cps,
              [104, 101, 108, 108, 111, 10]))
      ∧ (utf8Decode [104, 101, 108, 108, 111, 10] = none →
          sys_write 1 [104, 101, 108, 108, 111, 10] =
            (i64ofU64 (List.length [104, 101, 108, 108, 111, 10]),
              [104, 101, 108, 108, 111, 10], []))
      ∧ (∀ g, g ≠ 1 → g ≠ 2 → sys_write g [104, 101, 108, 108, 111, 10] = (-9, [], []))) :=
  ⟨Or.inl rfl, sys_write_spec 1 [104, 101, 108, 108, 111, 10] (Or.inl rfl)⟩

/-! ### mmap -/

/-- `x & !0xFFF` on a 64-bit value clears the low 12 bits. -/
theorem land_align (x : Nat) (hx : x < 2 ^ 64) :
    x &&& (2 ^ 64 - 0x1000) = x / 0x1000 * 0x1000 := by
  apply Nat.eq_of_testBit_eq
  intro j
  rw [Nat.testBit_and]
  have hmask : (2 ^ 64 - 0x1000 : Nat) = 2 ^ 12 * (2 ^ 52 - 1) := by norm_num
  have hdiv : x / 0x1000 * 0x1000 = 2 ^ 12 * (x >>> 12) := by
    rw [Nat.shiftRight_eq_div_pow]
    norm_num [Nat.mul_comm]
  rw [hmask, hdiv, Nat.testBit_mul_pow_two, Nat.testBit_mul_pow_two]
  by_cases h12 : 12 ≤ j
  · simp only [ge_iff_le, h12, decide_True, Bool.true_and]
    rw [Nat.testBit_two_pow_sub_one, Nat.testBit_shiftRight]
    rw [show 12 + (j - 12) = j by omega]
    by_cases h64 : j < 64
    · have hj : j - 12 < 52 := by omega
      simp [hj]
    · have h1 : ¬ (j - 12 < 52) := by omega
      have h2 : x.testBit j = false :=
        Nat.testBit_lt_two_pow
          (lt_of_lt_of_le hx (Nat.pow_le_pow_right (by norm_num) (by omega)))
      simp [h1, h2]
  · have : ¬ j ≥ 12 := h12
    simp [this]

/-- Counterexample to claim C5 as stated, at both u64 wrap sites. With
`length = 2^64 - 1` the rounding `(length + 0xFFF) & !0xFFF` wraps to 0, so
the call succeeds and returns the cursor unmoved although the rounded-up
request (2^64 bytes) vastly exceeds the pool end, where the claim demands
`-ENOMEM`. With `length = 2^64 - 0x1000` the rounding does not wrap, but
the pool-bound sum `MMAP_NEXT + aligned_len` does: it wraps to `0x47F000`,
so the call succeeds and moves the cursor backward to `0x47F000`, again
where the claim demands `-ENOMEM`. -/
theorem sys_mmap_wrap_counterexample :
    sys_mmap MMAP_NEXT_INIT 0 (2 ^ 64 - 1) 0 0x22 = (i64ofU64 MMAP_NEXT_INIT, MMAP_NEXT_INIT)
    ∧ i64ofU64 MMAP_NEXT_INIT ≠ -12
    ∧ MMAP_END < MMAP_NEXT_INIT + ((2 ^ 64 - 1) + 0xFFF) / 0x1000 * 0x1000
    ∧ sys_mmap MMAP_NEXT_INIT 0 (2 ^ 64 - 0x1000) 0 0x22 = (i64ofU64 MMAP_NEXT_INIT, 0x47F000)
    ∧ MMAP_END < MMAP_NEXT_INIT + ((2 ^ 64 - 0x1000) + 0xFFF) / 0x1000 * 0x1000 := by
  refine ⟨by decide, by decide, by decide, by decide, by decide⟩


theorem getrandom_fill_fst : ∀ (n seed : Nat),
    (getrandom_fill seed n).1 = lcg_stream seed n := by
  intro n
  induction n with
  | zero => intro seed; rfl
  | succ n ih =>
    intro seed
    rw [getrandom_fill, lcg_stream, ← ih (lcg_next seed)]

theorem getrandom_fill_snd : ∀ (n seed : Nat),
    (getrandom_fill seed n).2 = lcg_next^[n] seed := by
  intro n
  induction n with
  | zero => intro seed; rfl
  | succ n ih =>
    intro seed
    rw [getrandom_fill, Function.iterate_succ_apply]
    exact ih (lcg_next seed)

/-- Claim C10: `sys_getrandom` is deterministic.  Its output does not depend
on `flags`; it always returns `buflen`; the bytes written are the orbit of
the LCG `s ↦ (6364136223846793005·s + 1) mod 2^64` and the final seed is its
`n`-th iterate; the global seed starts at the compile-time constant
`0x12345678DEADBEEF`, so two fresh boots produce identical streams. -/
theorem sys_getrandom_deterministic :
    ∀ (seed n f g : Nat),
      sys_getrandom seed n f = sys_getrandom seed n g
      ∧ (sys_getrandom seed n f).2.2 = i64ofU64 n
      ∧ (sys_getrandom seed n f).1 = lcg_stream seed n
      ∧ (sys_getrandom seed n f).2.1 = lcg_next^[n] seed
      ∧ (sys_getrandom SEED_INIT n f).1 = lcg_stream 0x12345678DEADBEEF n := by
  intro seed n f g
  refine ⟨rfl, rfl, getrandom_fill_fst n seed, getrandom_fill_snd n seed, ?_⟩
  exact getrandom_fill_fst n SEED_INIT

end Syscalls

namespace ElfLoader

theorem stack_sp_eq : stack_sp = 0x7FFFFFFEFF00 := by decide

/-- Claim C3: after `setup_user_stack`, the returned RSP points at the argc
slot; the words at RSP, RSP+8, RSP+16 are 0 (argc, argv terminator, envp
terminator); and from RSP+24 a sequence of 16-byte (tag, value) pairs runs
to its (AT_NULL, 0) terminator at index 7, the earlier tags all nonzero and
including AT_PHDR (3), AT_PHENT (4), AT_PHNUM (5), AT_PAGESZ (6) and
AT_ENTRY (9). -/
theorem setup_user_stack_layout (phdr_offset phnum phent entry : Nat) (is_pie : Bool) :
    (setup_user_stack phdr_offset phnum phent entry is_pie).1 = 0x7FFFFFFEFF00
    ∧ (setup_user_stack phdr_offset phnum phent entry is_pie).2 0x7FFFFFFEFF00 = 0
    ∧ (setup_user_stack phdr_offset phnum phent entry is_pie).2 (0x7FFFFFFEFF00 + 8) = 0
    ∧ (setup_user_stack phdr_offset phnum phent entry is_pie).2 (0x7FFFFFFEFF00 + 16) = 0
    ∧ ∃ nend,
        (∀ j < nend,
          (setup_user_stack phdr_offset phnum phent entry is_pie).2
            (0x7FFFFFFEFF00 + 24 + 16 * j) ≠ 0)
        ∧ (setup_user_stack phdr_offset phnum phent entry is_pie).2
            (0x7FFFFFFEFF00 + 24 + 16 * nend) = 0
        ∧ (setup_user_stack phdr_offset phnum phent entry is_pie).2
            (0x7FFFFFFEFF00 + 24 + 16 * nend + 8) = 0
        ∧ ∀ tag ∈ [3, 4, 5, 6, 9], ∃ j < nend,
            (setup_user_stack phdr_offset phnum phent entry is_pie).2
              (0x7FFFFFFEFF00 + 24 + 16 * j) = tag := by
  refine ⟨?_, ?_, ?_, ?_, ⟨7, ?_, ?_, ?_, ?_⟩⟩
  · simp [setup_user_stack, stack_sp_eq]
  · simp [setup_user_stack, write_to_stack, stack_sp_eq, USER_STACK_BOTTOM, USER_STACK_SIZE]
  · simp [setup_user_stack, write_to_stack, stack_sp_eq, USER_STACK_BOTTOM, USER_STACK_SIZE]
  · simp [setup_user_stack, write_to_stack, stack_sp_eq, USER_STACK_BOTTOM, USER_STACK_SIZE]
  · intro j hj
    interval_cases j <;>
      simp [setup_user_stack, write_to_stack, stack_sp_eq, USER_STACK_BOTTOM, USER_STACK_SIZE]
  · simp [setup_user_stack, write_to_stack, stack_sp_eq, USER_STACK_BOTTOM, USER_STACK_SIZE]
  · simp [setup_user_stack, write_to_stack, stack_sp_eq, USER_STACK_BOTTOM, USER_STACK_SIZE]
  · intro tag htag
    fin_cases htag
    · exact ⟨0, by norm_num, by
        simp [setup_user_stack, write_to_stack, stack_sp_eq, USER_STACK_BOTTOM, USER_STACK_SIZE]⟩
    · exact ⟨1, by norm_num, by
        simp [setup_user_stack, write_to_stack, stack_sp_eq, USER_STACK_BOTTOM, USER_STACK_SIZE]⟩
    · exact ⟨2, by norm_num, by
        simp [setup_user_stack, write_to_stack, stack_sp_eq, USER_STACK_BOTTOM, USER_STACK_SIZE]⟩
    · exact ⟨3, by norm_num, by
        simp [setup_user_stack, write_to_stack, stack_sp_eq, USER_STACK_BOTTOM, USER_STACK_SIZE]⟩
    · exact ⟨5, by norm_num, by
        simp [setup_user_stack, write_to_stack, stack_sp_eq, USER_STACK_BOTTOM, USER_STACK_SIZE]⟩

theorem map_zero_page_mapped (st : LoadState) (p q : Nat) :
    (map_zero_page st p).mapped q = (st.mapped q || decide (q = p)) := by
  unfold map_zero_page
  by_cases hm : st.mapped p
  · rw [if_pos hm]
    by_cases hq : q = p
    · simp [hq, hm]
    · simp [hq]
  · rw [if_neg hm]
    by_cases hq : q = p
    · simp [hq]
    · simp [hq]

theorem map_zero_page_mem (st : LoadState) (p a : Nat) :
    (map_zero_page st p).mem a =
      if a / 4096 = p ∧ st.mapped p = false then 0 else st.mem a := by
  unfold map_zero_page
  by_cases hm : st.mapped p
  · rw [if_pos hm]
    have : ¬ (a / 4096 = p ∧ st.mapped p = false) := by simp [hm]
    rw [if_neg this]
  · rw [if_neg hm]
    by_cases hp : a / 4096 = p
    · simp [hp, hm]
    · simp [hp]

theorem map_zero_pages_mapped : ∀ (k : Nat) (st : LoadState) (p q : Nat),
    (map_zero_pages st p k).mapped q = (st.mapped q || decide (p ≤ q ∧ q < p + k)) := by
  intro k
  induction k with
  | zero =>
    intro st p q
    have : ¬ (p ≤ q ∧ q < p + 0) := by omega
    simp [map_zero_pages, this]
  | succ k ih =>
    intro st p q
    rw [map_zero_pages, ih, map_zero_page_mapped]
    have hiff : (q = p ∨ (p + 1 ≤ q ∧ q < p + 1 + k)) ↔ (p ≤ q ∧ q < p + (k + 1)) := by
      omega
    rw [Bool.or_assoc, ← Bool.decide_or, decide_eq_decide.mpr hiff]

theorem map_zero_pages_mem : ∀ (k : Nat) (st : LoadState) (p a : Nat),
    (map_zero_pages st p k).mem a =
      if p ≤ a / 4096 ∧ a / 4096 < p + k ∧ st.mapped (a / 4096) = false then 0
      else st.mem a := by
  intro k
  induction k with
  | zero =>
    intro st p a
    rw [map_zero_pages]
    exact (if_neg (by rintro ⟨x, y, z⟩; omega)).symm
  | succ k ih =>
    intro st p a
    rw [map_zero_pages, ih, map_zero_page_mem, map_zero_page_mapped]
    by_cases hd : a / 4096 = p
    · by_cases hm : st.mapped p = true
      · have hm2 : st.mapped (a / 4096) = true := by rw [hd]; exact hm
        have c1 : ¬ (p + 1 ≤ a / 4096 ∧ a / 4096 < p + 1 + k ∧
            (st.mapped (a / 4096) || decide (a / 4096 = p)) = false) := by
          rintro ⟨-, -, z⟩
          rw [hm2] at z
          exact Bool.noConfusion z
        have c2 : ¬ (a / 4096 = p ∧ st.mapped p = false) := by
          rintro ⟨-, y⟩
          rw [hm] at y
          exact Bool.noConfusion y
        have c3 : ¬ (p ≤ a / 4096 ∧ a / 4096 < p + (k + 1) ∧
            st.mapped (a / 4096) = false) := by
          rintro ⟨-, -, z⟩
          rw [hm2] at z
          exact Bool.noConfusion z
        rw [if_neg c1, if_neg c2, if_neg c3]
      · have hmf : st.mapped p = false := Bool.eq_false_iff.mpr hm
        have hm2 : st.mapped (a / 4096) = false := by rw [hd]; exact hmf
        have c1 : ¬ (p + 1 ≤ a / 4096 ∧ a / 4096 < p + 1 + k ∧
            (st.mapped (a / 4096) || decide (a / 4096 = p)) = false) := by
          rintro ⟨x, -, -⟩
          omega
        have c3 : p ≤ a / 4096 ∧ a / 4096 < p + (k + 1) ∧
            st.mapped (a / 4096) = false := ⟨by omega, by omega, hm2⟩
        rw [if_neg c1, if_pos ⟨hd, hmf⟩, if_pos c3]
    · have c2 : ¬ (a / 4096 = p ∧ st.mapped p = false) := fun h => hd h.1
      by_cases hm : st.mapped (a / 4096) = false
      · by_cases hin : p + 1 ≤ a / 4096 ∧ a / 4096 < p + 1 + k
        · have c1 : p + 1 ≤ a / 4096 ∧ a / 4096 < p + 1 + k ∧
              (st.mapped (a / 4096) || decide (a / 4096 = p)) = false :=
            ⟨hin.1, hin.2, by rw [hm]; simp [hd]⟩
          have c3 : p ≤ a / 4096 ∧ a / 4096 < p + (k + 1) ∧
              st.mapped (a / 4096) = false := ⟨by omega, by omega, hm⟩
          rw [if_pos c1, if_pos c3]
        · have c1 : ¬ (p + 1 ≤ a / 4096 ∧ a / 4096 < p + 1 + k ∧
              (st.mapped (a / 4096) || decide (a / 4096 = p)) = false) :=
            fun h => hin ⟨h.1, h.2.1⟩
          have c3 : ¬ (p ≤ a / 4096 ∧ a / 4096 < p + (k + 1) ∧
              st.mapped (a / 4096) = false) := by
            rintro ⟨x, y, -⟩
            exact hin ⟨by omega, by omega⟩
          rw [if_neg c1, if_neg c2, if_neg c3]
      · have hmt : st.mapped (a / 4096) = true := by
          rcases Bool.eq_false_or_eq_true (st.mapped (a / 4096)) with h | h
          · exact h
          · exact absurd h hm
        have c1 : ¬ (p + 1 ≤ a / 4096 ∧ a / 4096 < p + 1 + k ∧
            (st.mapped (a / 4096) || decide (a / 4096 = p)) = false) := by
          rintro ⟨-, -, z⟩
          rw [hmt] at z
          exact Bool.noConfusion z
        have c3 : ¬ (p ≤ a / 4096 ∧ a / 4096 < p + (k + 1) ∧
            st.mapped (a / 4096) = false) := by
          rintro ⟨-, -, z⟩
          exact hm z
        rw [if_neg c1, if_neg c2, if_neg c3]

theorem copy_bytes_mem (file : Nat → Nat) (dst off : Nat) :
    ∀ (n : Nat) (m : Nat → Nat) (a : Nat),
      copy_bytes file dst off m n a =
        if dst ≤ a ∧ a < dst + n then file (off + (a - dst)) else m a := by
  intro n
  induction n with
  | zero =>
    intro m a
    rw [copy_bytes]
    exact (if_neg (by rintro ⟨x, y⟩; omega)).symm
  | succ n ih =>
    intro m a
    simp only [copy_bytes]
    by_cases ha : a = dst + n
    · rw [if_pos ha]
      have hin : dst ≤ a ∧ a < dst + (n + 1) := by omega
      rw [if_pos hin, ha, show dst + n - dst = n by omega]
    · rw [if_neg ha, ih]
      by_cases hin : dst ≤ a ∧ a < dst + n
      · rw [if_pos hin, if_pos (show dst ≤ a ∧ a < dst + (n + 1) by omega)]
      · rw [if_neg hin, if_neg (by rintro ⟨x, y⟩; exact hin ⟨x, by omega⟩)]

theorem mapped_true_of_ne_false {b : Bool} (h : ¬ b = false) : b = true := by
  rcases Bool.eq_false_or_eq_true b with h2 | h2
  · exact h2
  · exact absurd h2 h

theorem load_segment_inv (base : Nat) (file : Nat → Nat) (done : List Seg)
    (st : LoadState) (s : Seg)
    (hinv : LoadInv base file done st) (hwf : s.filesz ≤ s.memsz)
    (hdisj : ∀ t ∈ done, seg_disjoint t s) :
    LoadInv base file (done ++ [s]) (load_segment st file s base) := by
  by_cases hm0 : s.memsz = 0
  · rw [load_segment, if_pos hm0]
    constructor
    · intro t ht a ha
      rcases List.mem_append.mp ht with ht | ht
      · exact hinv.1 t ht a ha
      · rw [List.mem_singleton] at ht
        rw [ht] at ha
        exact absurd ha (by unfold seg_range; omega)
    · intro a hmap hnone
      exact hinv.2 a hmap (fun t ht => hnone t (List.mem_append_left _ ht))
  · rw [load_segment, if_neg hm0]
    simp only
    set vstart := base + s.vaddr with hv
    set spage := vstart / 4096 with hsp
    set epage := (vstart + s.memsz - 1) / 4096 with hep
    set cnt := epage + 1 - spage with hcnt
    set st1 := map_zero_pages st spage cnt with hst1
    set st2 := if 0 < s.filesz then
        { st1 with mem := copy_bytes file vstart s.offset st1.mem s.filesz }
      else st1 with hst2
    have hpage : ∀ b, seg_range base s b → spage ≤ b / 4096 ∧ b / 4096 < spage + cnt := by
      intro b hb
      unfold seg_range at hb
      omega
    have hmem1 : ∀ b, st1.mem b =
        if spage ≤ b / 4096 ∧ b / 4096 < spage + cnt ∧ st.mapped (b / 4096) = false then 0
        else st.mem b := fun b => map_zero_pages_mem cnt st spage b
    have hmap1 : ∀ q, st1.mapped q =
        (st.mapped q || decide (spage ≤ q ∧ q < spage + cnt)) :=
      fun q => map_zero_pages_mapped cnt st spage q
    have hmap2 : ∀ q, st2.mapped q = st1.mapped q := by
      intro q
      rw [hst2]
      by_cases hf : 0 < s.filesz
      · rw [if_pos hf]
      · rw [if_neg hf]
    have hmem2 : ∀ b, st2.mem b =
        if vstart ≤ b ∧ b < vstart + s.filesz then file (s.offset + (b - vstart))
        else st1.mem b := by
      intro b
      rw [hst2]
      by_cases hf : 0 < s.filesz
      · rw [if_pos hf]
        exact copy_bytes_mem file vstart s.offset s.filesz st1.mem b
      · rw [if_neg hf]
        exact (if_neg (by omega)).symm
    constructor
    · intro t ht a ha
      rcases List.mem_append.mp ht with htd | hts
      · obtain ⟨hc, hmp⟩ := hinv.1 t htd a ha
        have hdis := hdisj t htd
        have hnots : ¬ seg_range base s a := by
          unfold seg_range at ha ⊢
          unfold seg_disjoint at hdis
          omega
        have hns1 : ¬ (vstart ≤ a ∧ a < vstart + s.filesz) := by
          intro hcc
          apply hnots
          unfold seg_range
          omega
        have hns2 : ¬ (spage ≤ a / 4096 ∧ a / 4096 < spage + cnt ∧
            st.mapped (a / 4096) = false) := by
          rintro ⟨-, -, z⟩
          rw [hmp] at z
          exact Bool.noConfusion z
        refine ⟨?_, ?_⟩
        · rw [hmem2 a, if_neg hns1, hmem1 a, if_neg hns2]
          exact hc
        · rw [hmap2, hmap1, hmp]
          simp
      · rw [List.mem_singleton] at hts
        rw [hts] at ha ⊢
        have hpg := hpage a ha
        have har : vstart ≤ a ∧ a < vstart + s.memsz := by
          unfold seg_range at ha
          exact ha
        refine ⟨?_, ?_⟩
        · rw [hmem2 a]
          unfold seg_content
          rw [← hv]
          by_cases hcopy : a < vstart + s.filesz
          · rw [if_pos ⟨har.1, hcopy⟩, if_pos (by omega)]
          · rw [if_neg (by omega), if_neg (by omega), hmem1 a]
            by_cases hmf : st.mapped (a / 4096) = false
            · rw [if_pos ⟨hpg.1, hpg.2, hmf⟩]
            · rw [if_neg (by rintro ⟨-, -, z⟩; exact hmf z)]
              apply hinv.2 a (mapped_true_of_ne_false hmf)
              intro u hud
              have hdis := hdisj u hud
              unfold seg_range
              unfold seg_disjoint at hdis
              omega
        · rw [hmap2, hmap1, decide_eq_true hpg]
          simp
    · intro a hmap hnone
      have hnots : ¬ seg_range base s a := hnone s (by simp)
      have hnotr : ¬ (vstart ≤ a ∧ a < vstart + s.filesz) := by
        intro hcc
        apply hnots
        unfold seg_range
        omega
      rw [hmem2 a, if_neg hnotr, hmem1 a]
      by_cases hcond : spage ≤ a / 4096 ∧ a / 4096 < spage + cnt ∧
          st.mapped (a / 4096) = false
      · rw [if_pos hcond]
      · rw [if_neg hcond]
        rw [hmap2, hmap1] at hmap
        by_cases hmt : st.mapped (a / 4096) = true
        · exact hinv.2 a hmt (fun t ht => hnone t (List.mem_append_left _ ht))
        · have hmf : st.mapped (a / 4096) = false := Bool.eq_false_iff.mpr hmt
          rw [hmf, Bool.false_or, decide_eq_true_eq] at hmap
          exact absurd ⟨hmap.1, hmap.2, hmf⟩ hcond

theorem load_segments_inv (base : Nat) (file : Nat → Nat) :
    ∀ (segs done : List Seg) (st : LoadState),
      LoadInv base file done st →
      (∀ s ∈ segs, s.filesz ≤ s.memsz) →
      segs.Pairwise seg_disjoint →
      (∀ t ∈ done, ∀ u ∈ segs, seg_disjoint t u) →
      LoadInv base file (done ++ segs)
        (segs.foldl (fun st s => load_segment st file s base) st) := by
  intro segs
  induction segs with
  | nil =>
    intro done st hinv _ _ _
    rw [List.append_nil, List.foldl_nil]
    exact hinv
  | cons s rest ih =>
    intro done st hinv hwf hpw hcross
    rw [List.foldl_cons]
    have hstep := load_segment_inv base file done st s hinv
      (hwf s (List.mem_cons_self s rest))
      (fun t ht => hcross t ht s (List.mem_cons_self s rest))
    have hrest := ih (done ++ [s]) (load_segment st file s base) hstep
      (fun u hu => hwf u (List.mem_cons_of_mem _ hu))
      ((List.pairwise_cons.mp hpw).2)
      (by
        intro t ht u hu
        rcases List.mem_append.mp ht with h | h
        · exact hcross t h u (List.mem_cons_of_mem _ hu)
        · rw [List.mem_singleton] at h
          rw [h]
          exact (List.pairwise_cons.mp hpw).1 u hu)
    rw [List.append_assoc, List.singleton_append] at hrest
    exact hrest

theorem map_zero_pages_preserves (stx : LoadState) (p k b : Nat)
    (hb : stx.mapped (b / 4096) = true) :
    (map_zero_pages stx p k).mem b = stx.mem b := by
  rw [map_zero_pages_mem]
  exact if_neg (by rintro ⟨-, -, z⟩; rw [hb] at z; exact Bool.noConfusion z)

theorem map_zero_pages_mono (stx : LoadState) (p k q : Nat) (hq : stx.mapped q = true) :
    (map_zero_pages stx p k).mapped q = true := by
  rw [map_zero_pages_mapped, hq, Bool.true_or]

/-- Claim C4: for a PIE image, `load_user_elf` applies no `R_X86_64_RELATIVE`
relocations: the only bytes written into the loaded `PT_LOAD` extents are the
zero fill of freshly mapped pages followed by the verbatim `filesz`-byte copy
of each segment, so afterwards every address of `[base+vaddr, base+vaddr+memsz)`
holds the file content zero-extended, with no base-address adjustment.  The
hypotheses are ELF well-formedness: nothing pre-mapped, `filesz ≤ memsz`, and
pairwise disjoint segment extents. -/
theorem load_user_elf_no_reloc (file : Nat → Nat) (segs : List Seg) (st0 : LoadState)
    (h0 : ∀ p, st0.mapped p = false)
    (hwf : ∀ s ∈ segs, s.filesz ≤ s.memsz)
    (hdisj : segs.Pairwise seg_disjoint) :
    ∀ s ∈ segs, ∀ a, seg_range USER_BASE_ADDR s a →
      (load_user_elf file segs true st0).mem a =
        seg_content USER_BASE_ADDR file s a := by
  have hinv0 : LoadInv USER_BASE_ADDR file [] st0 := by
    constructor
    · intro t ht
      exact absurd ht (List.not_mem_nil t)
    · intro a hm _
      rw [h0] at hm
      exact Bool.noConfusion hm
  have hfold := load_segments_inv USER_BASE_ADDR file segs [] st0 hinv0 hwf hdisj
    (fun t ht => absurd ht (List.not_mem_nil t))
  rw [List.nil_append] at hfold
  intro s hs a ha
  obtain ⟨hc, hmp⟩ := hfold.1 s hs a ha
  have e1 : load_user_elf file segs true st0 =
      map_zero_pages
        (map_zero_pages (segs.foldl (fun st s => load_segment st file s USER_BASE_ADDR) st0)
          (0x480000 / 4096) ((0x500000 - 1) / 4096 + 1 - 0x480000 / 4096))
        (0x8000000 / 4096) ((0x8100000 - 1) / 4096 + 1 - 0x8000000 / 4096) := rfl
  have hm2 : (map_zero_pages
      (segs.foldl (fun st s => load_segment st file s USER_BASE_ADDR) st0)
      (0x480000 / 4096) ((0x500000 - 1) / 4096 + 1 - 0x480000 / 4096)).mapped (a / 4096) =
      true := map_zero_pages_mono _ _ _ _ hmp
  rw [e1, map_zero_pages_preserves _ _ _ a hm2, map_zero_pages_preserves _ _ _ a hmp]
  exact hc

theorem load_user_elf_no_reloc_witness :
    (∀ p, wLoad0.mapped p = false)
    ∧ (∀ s ∈ [wSeg], s.filesz ≤ s.memsz)
    ∧ [wSeg].Pairwise seg_disjoint
    ∧ (∀ s ∈ [wSeg], ∀ a, seg_range USER_BASE_ADDR s a →
        (load_user_elf wFile [wSeg] true wLoad0).mem a =
          seg_content USER_BASE_ADDR wFile s a) :=
  ⟨fun _ => rfl, by decide, by simp,
    load_user_elf_no_reloc wFile [wSeg] wLoad0 (fun _ => rfl) (by decide) (by simp)⟩

end ElfLoader

namespace Locking

/-- Counterexample to claim C9 as stated: the public PMM operations take only
the spinlock; `allocate_frame` (and likewise the others) performs no
interrupt-flag transition at all, so its critical section is not wrapped in
an interrupts-disabled window. -/
theorem pmm_irq_guard_counterexample :
    ¬ (∀ t ∈ [pmm_init_trace, pmm_allocate_frame_trace, pmm_free_frame_trace],
        guardedIrqThenLock t) := by
  intro h
  obtain ⟨body, hb⟩ := h pmm_allocate_frame_trace (by simp)
  rw [pmm_allocate_frame_trace, spinlock_lock_trace, spinlock_drop_trace] at hb
  simp at hb

/-- Amended claim C9: every public operation of the frame allocator
(`init`, `allocate_frame`, `free_frame`) runs its critical section guarded
by the allocator's spinlock alone — acquired on entry, released on return —
with no interrupt-disabling around it (the interrupt flag is never touched,
in contrast with the spec's blanket locking discipline). -/
theorem pmm_ops_lock_only :
    pmm_init_trace = [LockEvent.acquire, LockEvent.release]
    ∧ pmm_allocate_frame_trace = [LockEvent.acquire, LockEvent.release]
    ∧ pmm_free_frame_trace = [LockEvent.acquire, LockEvent.release]
    ∧ LockEvent.irq_off ∉ pmm_init_trace
    ∧ LockEvent.irq_off ∉ pmm_allocate_frame_trace
    ∧ LockEvent.irq_off ∉ pmm_free_frame_trace := by
  refine ⟨rfl, rfl, rfl, ?_, ?_, ?_⟩ <;> decide

end Locking

namespace Syscalls

/-- Amended claim C5: for lengths with `length + 0xFFF + MMAP_END < 2^64`
(so that, given a cursor inside the pool, neither the u64 rounding
`(length + 0xFFF) & !0xFFF` nor the u64 pool-bound sum
`MMAP_NEXT + aligned_len` wraps), the pool path rounds the length up to a
4096-byte multiple, returns the cursor and advances it by that amount, or
returns `-ENOMEM` (-12) exactly when the rounded request would exceed the
pool end; requests with `addr ≥ 0x1000` return `addr` unchanged; every
pool-allocated block is 4 KiB aligned and lies inside the pre-reserved
pool `[0x480000, 0x500000)`; and the ELF loader's pool pre-map zeroes
every pool byte whose page it maps. -/
theorem sys_mmap_spec (st addr length prot flags : Nat)
    (hlen : length + 0xFFF + MMAP_END < 2 ^ 64)
    (hlo : MMAP_NEXT_INIT ≤ st) (hhi : st ≤ MMAP_END) (hal : st % 0x1000 = 0) :
    (addr < 0x1000 →
      (MMAP_END < st + (length + 0xFFF) / 0x1000 * 0x1000 →
        sys_mmap st addr length prot flags = (-12, st))
      ∧ (st + (length + 0xFFF) / 0x1000 * 0x1000 ≤ MMAP_END →
        sys_mmap st addr length prot flags =
            (i64ofU64 st, st + (length + 0xFFF) / 0x1000 * 0x1000)
          ∧ st % 0x1000 = 0
          ∧ MMAP_NEXT_INIT ≤ st
          ∧ st + (length + 0xFFF) / 0x1000 * 0x1000 ≤ MMAP_END
          ∧ (st + (length + 0xFFF) / 0x1000 * 0x1000) % 0x1000 = 0))
    ∧ (0x1000 ≤ addr → sys_mmap st addr length prot flags = (i64ofU64 addr, st))
    ∧ (∀ st0 : ElfLoader.LoadState, ∀ b, 0x480000 ≤ b → b < 0x500000 →
        st0.mapped (b / 4096) = false →
        (ElfLoader.map_zero_pages st0 (0x480000 / 4096)
          ((0x500000 - 1) / 4096 + 1 - 0x480000 / 4096)).mem b = 0) := by
  have hsum : length + 0xFFF < 2 ^ 64 := by omega
  have halign : ((length + 0xFFF) % 2 ^ 64) &&& (2 ^ 64 - 0x1000) =
      (length + 0xFFF) / 0x1000 * 0x1000 := by
    rw [Nat.mod_eq_of_lt hsum, land_align _ hsum]
  have hmod : (st + (length + 0xFFF) / 0x1000 * 0x1000) % 2 ^ 64 =
      st + (length + 0xFFF) / 0x1000 * 0x1000 := by omega
  refine ⟨?_, ?_, ?_⟩
  · intro haddr
    have hcond : ¬ (addr ≠ 0 ∧ 0x1000 ≤ addr) := by omega
    constructor
    · intro hoom
      unfold sys_mmap
      simp only [halign, hmod]
      rw [if_neg hcond, if_pos hoom]
    · intro hfit
      have hnoom : ¬ MMAP_END < st + (length + 0xFFF) / 0x1000 * 0x1000 := by omega
      refine ⟨?_, hal, hlo, hfit, by omega⟩
      unfold sys_mmap
      simp only [halign, hmod]
      rw [if_neg hcond, if_neg hnoom]
  · intro haddr
    have hcond : addr ≠ 0 ∧ 0x1000 ≤ addr := by omega
    unfold sys_mmap
    rw [halign, if_pos hcond]
  · intro st0 b h1 h2 h3
    rw [ElfLoader.map_zero_pages_mem]
    exact if_pos ⟨by omega, by omega, h3⟩

theorem sys_mmap_spec_witness :
    ((0x2000 : Nat) + 0xFFF + MMAP_END < 2 ^ 64 ∧ MMAP_NEXT_INIT ≤ 0x480000
      ∧ (0x480000 : Nat) ≤ MMAP_END ∧ (0x480000 : Nat) % 0x1000 = 0)
    ∧ (((0 : Nat) < 0x1000 →
        (MMAP_END < 0x480000 + (0x2000 + 0xFFF) / 0x1000 * 0x1000 →
          sys_mmap 0x480000 0 0x2000 3 0x22 = (-12, 0x480000))
        ∧ (0x480000 + (0x2000 + 0xFFF) / 0x1000 * 0x1000 ≤ MMAP_END →
          sys_mmap 0x480000 0 0x2000 3 0x22 =
              (i64ofU64 0x480000, 0x480000 + (0x2000 + 0xFFF) / 0x1000 * 0x1000)
            ∧ (0x480000 : Nat) % 0x1000 = 0
            ∧ MMAP_NEXT_INIT ≤ 0x480000
            ∧ 0x480000 + (0x2000 + 0xFFF) / 0x1000 * 0x1000 ≤ MMAP_END
            ∧ (0x480000 + (0x2000 + 0xFFF) / 0x1000 * 0x1000) % 0x1000 = 0))
      ∧ ((0x1000 : Nat) ≤ 0 → sys_mmap 0x480000 0 0x2000 3 0x22 = (i64ofU64 0, 0x480000))
      ∧ (∀ st0 : ElfLoader.LoadState, ∀ b, 0x480000 ≤ b → b < 0x500000 →
          st0.mapped (b / 4096) = false →
          (ElfLoader.map_zero_pages st0 (0x480000 / 4096)
            ((0x500000 - 1) / 4096 + 1 - 0x480000 / 4096)).mem b = 0)) :=
  ⟨⟨by decide, by decide, by decide, by decide⟩,
    sys_mmap_spec 0x480000 0 0x2000 3 0x22 (by decide) (by decide) (by decide) (by decide)⟩

end Syscalls
